import Mathlib

/-!
Shallow embedding of the log-structured key/value store in
`src/src/kvstore.cpp` / `src/include/kvstore/kvstore.h`.

Byte strings (keys, values, file contents) are modelled as `List Char`.
The on-disk log, the in-memory index, the stream positions used by
`ReplayLog`, and the file-handle state of `log_in_` / `log_out_` are all
modelled explicitly; the operating system is assumed to perform requested
reads and writes (I/O failures are injected through an explicit outcome
parameter where the code branches on them).
-/

set_option autoImplicit false

namespace KV

abbrev Str := List Char

/-- `std::isspace` in the default locale: space and the five control
whitespace characters 9..13 (`\t \n \v \f \r`).  Used by the
`istringstream` extraction operators in `KVStore::ReplayLog`. -/
def isWS (c : Char) : Bool := c.toNat = 32 || (9 ≤ c.toNat && c.toNat ≤ 13)

/-- Decimal digit characters `'0'..'9'`, as recognised by `operator>>`
into an unsigned integer. -/
def isDigitC (c : Char) : Bool := 48 ≤ c.toNat && c.toNat ≤ 57

/-- The decimal digit character for `d < 10`. -/
def decDigit (d : Nat) : Char :=
  match d with
  | 0 => '0' | 1 => '1' | 2 => '2' | 3 => '3' | 4 => '4'
  | 5 => '5' | 6 => '6' | 7 => '7' | 8 => '8' | _ => '9'

/-- Digits of `n`, most significant first; structural recursion on a
fuel bound (any `fuel > n` is sufficient, since the argument at least
halves each step). -/
def toDecimalGo : Nat → Nat → Str
  | 0, _ => []
  | fuel + 1, n =>
    if n < 10 then [decDigit n]
    else toDecimalGo fuel (n / 10) ++ [decDigit (n % 10)]

/-- `std::to_string` on an unsigned integer: its decimal digits,
most significant first. -/
def toDecimal (n : Nat) : Str := toDecimalGo (n + 1) n

/-- Value of a digit string (the conversion performed by `operator>>`
into an unsigned integer once the digits have been isolated). -/
def decToNat (l : Str) : Nat := l.foldl (fun a c => 10 * a + (c.toNat - 48)) 0

/-- One `iss >> token` extraction on a `std::string` target: skip
leading whitespace, then take the maximal run of non-whitespace
characters.  Returns the token (empty iff extraction failed) and the
rest of the input. -/
def nextToken (l : Str) : Str × Str :=
  let l' := l.dropWhile isWS
  (l'.takeWhile (fun c => !isWS c), l'.dropWhile (fun c => !isWS c))

/-- One `iss >> n` extraction on a `uint64_t` target: skip leading
whitespace, convert the maximal run of decimal digits; a failed
extraction writes `0` (C++11 semantics), which coincides with
`decToNat []`. -/
def readNat (l : Str) : Nat :=
  decToNat ((l.dropWhile isWS).takeWhile isDigitC)

/-- Helper for `getline`: split off the first line of `l`.  Returns the
line (without its `'\n'`), the number of characters consumed (including
the `'\n'` if one was found), and whether a `'\n'` terminated the line
(`false` means the line was ended by end-of-file, which sets `eofbit`). -/
def splitLine : Str → Str × Nat × Bool
  | [] => ([], 0, false)
  | c :: cs =>
    if c = '\n' then ([], 1, true)
    else
      let r := splitLine cs
      (c :: r.1, r.2.1 + 1, r.2.2)

/-- `std::getline(in, header)` on content `s` at position `p`: fails
(returns `none`, ending the replay loop) iff no character is available;
otherwise returns the line, the new position, and whether the line was
terminated by `'\n'` (if not, `eofbit` is set and a subsequent `tellg`
returns `-1`). -/
def getline (s : Str) (p : Nat) : Option (Str × Nat × Bool) :=
  if p < s.length then
    let r := splitLine (s.drop p)
    some (r.1, p + r.2.1, r.2.2)
  else none

/-- The in-memory index entry (`struct Entry` in `kvstore.h`): value
location in the log, or an inline cached value for memory-only mode. -/
structure Entry where
  offset : Nat
  size : Nat
  in_memory : Bool
  cached : Str
deriving DecidableEq, Repr

/-- `std::unordered_map<std::string, Entry>`, modelled as an association
list with unique keys. -/
abbrev Index := List (Str × Entry)

/-- `index_.find(key)`. -/
def idxLookup (idx : Index) (k : Str) : Option Entry :=
  match idx with
  | [] => none
  | (k', e) :: t => if k' = k then some e else idxLookup t k

/-- `index_[key] = e`: replace the entry if the key is present,
otherwise add it. -/
def idxInsert (idx : Index) (k : Str) (e : Entry) : Index :=
  match idx with
  | [] => [(k, e)]
  | (k', e') :: t => if k' = k then (k, e) :: t else (k', e') :: idxInsert t k e

/-- `index_.erase(key)`: remove the key's entry. -/
def idxErase (idx : Index) (k : Str) : Index :=
  idx.filter (fun p => decide (p.1 ≠ k))

/-- The body of the `while (std::getline(in, header))` loop of
`KVStore::ReplayLog`, one fuel unit per iteration.  The position `p`
advances by at least one character per iteration, so fuel
`s.length + 1` (as supplied by `replayLog`) is never exhausted; the
fuel-exhausted branch returns the index accumulated so far.
`.error` models the `throw std::runtime_error` statements. -/
def replayAux : Nat → Str → Index → Nat → Except String Index
  | 0, _, idx, _ => .ok idx
  | fuel + 1, s, idx, p =>
    match getline s p with
    | none => .ok idx
    | some (line, p', sawNL) =>
      if line = [] then replayAux fuel s idx p'
      else
        let t1 := nextToken line
        if t1.1 = "PUT".toList then
          let t2 := nextToken t1.2
          let vsize := readNat t2.2
          if t2.1 = [] then .error "Bad PUT header in log"
          else if sawNL = false then .ok idx
          else
            match s[p' + vsize]? with
            | none => .ok idx
            | some nl =>
              if nl = '\n' then
                replayAux fuel s (idxInsert idx t2.1 (Entry.mk p' vsize false [])) (p' + vsize + 1)
              else .ok idx
        else if t1.1 = "DEL".toList then
          let t2 := nextToken t1.2
          if t2.1 = [] then .error "Bad DEL header in log"
          else replayAux fuel s (idxErase idx t2.1) p'
        else .ok idx

/-- `KVStore::ReplayLog` run over log content `s`: rebuild the index
from the start of the file.  A nonexistent file is modelled as empty
content (both give an empty index). -/
def replayLog (s : Str) : Except String Index :=
  replayAux (s.length + 1) s [] 0

/-- State of an `std::ifstream` / `std::ofstream` member.  After
`Compact`'s rename, a handle that was opened on the log path keeps
referring to the renamed-away (and then unlinked) file object, modelled
as `onStale`. -/
inductive HStatus
  | closed
  | onCur
  | onStale
deriving DecidableEq, Repr

/-- The fields of `class KVStore` together with the file system it
touches: `cur` is the content of the file at `log_path_`, `stale` the
content of the previous log file object (still readable through any
handle opened before compaction's rename). -/
structure PState where
  persist : Bool
  cur : Str
  stale : Str
  inH : HStatus
  outH : HStatus
  index : Index
deriving DecidableEq, Repr

/-- Content of the file a handle currently refers to. -/
def targetOf (s : PState) (h : HStatus) : Str :=
  match h with
  | .onCur => s.cur
  | .onStale => s.stale
  | .closed => []

/-- `KVStore::OpenFiles`: in persistent mode, open `log_out_` (append)
and `log_in_` on `log_path_` if they are not already open. -/
def openFiles (s : PState) : PState :=
  if s.persist = false then s
  else
    { s with
      outH := if s.outH = .closed then .onCur else s.outH,
      inH := if s.inH = .closed then .onCur else s.inH }

/-- `KVStore::CloseFiles`. -/
def closeFiles (s : PState) : PState :=
  { s with inH := .closed, outH := .closed }

/-- Append bytes through `log_out_` to whatever file it refers to
(writing to a closed stream has no effect on any file). -/
def writeOut (s : PState) (bytes : Str) : PState :=
  match s.outH with
  | .onCur => { s with cur := s.cur ++ bytes }
  | .onStale => { s with stale := s.stale ++ bytes }
  | .closed => s

/-- Outcome of the OS-level part of an append: either every requested
byte reaches the stream, or the stream fails and an arbitrary partial
suffix `junk` (possibly empty) ends up in the file. -/
inductive IOOut
  | ok
  | fail (junk : Str)

/-- The `PUT` header line of `KVStore::AppendPut`
(`"PUT " + key + " " + std::to_string(value.size())`). -/
def putHeader (k v : Str) : Str :=
  "PUT ".toList ++ k ++ " ".toList ++ toDecimal v.length

/-- `KVStore::AppendPut`: seek to end, write the header line, record
`tellp` (the absolute position after the header's `'\n'`) as the value
offset, then write the value and a trailing `'\n'` and flush.  Returns
the offset on success, `none` on failure. -/
def appendPut (s0 : PState) (k v : Str) (io : IOOut) : Option Nat × PState :=
  let s := openFiles s0
  if s.outH = .closed then (none, s)
  else
    match io with
    | .fail junk => (none, writeOut s junk)
    | .ok =>
      let s1 := writeOut s (putHeader k v ++ ['\n'])
      let off := (targetOf s1 s1.outH).length
      (some off, writeOut s1 (v ++ ['\n']))

/-- `KVStore::AppendDel`: write `"DEL " + key` and a `'\n'`, flush. -/
def appendDel (s0 : PState) (k : Str) (io : IOOut) : Bool × PState :=
  let s := openFiles s0
  if s.outH = .closed then (false, s)
  else
    match io with
    | .fail junk => (false, writeOut s junk)
    | .ok => (true, writeOut s ("DEL ".toList ++ k ++ ['\n']))

/-- `KVStore::ReadValueAt`: lazily open `log_in_` if needed, seek to
`offset`, read exactly `size` bytes; a short read yields `none`.
Reading zero bytes succeeds even past end-of-file. -/
def readValueAt (s0 : PState) (off sz : Nat) : Option Str × PState :=
  if s0.persist = false then (none, s0)
  else
    let s := if s0.inH = .closed then { s0 with inH := .onCur } else s0
    let content := targetOf s s.inH
    if sz = 0 then (some [], s)
    else if off + sz ≤ content.length then (some ((content.drop off).take sz), s)
    else (none, s)

/-- `KVStore::Put`. -/
def put (s : PState) (k v : Str) (io : IOOut) : Bool × PState :=
  if s.persist = false then
    (true, { s with index := idxInsert s.index k (Entry.mk 0 0 true v) })
  else
    match appendPut s k v io with
    | (none, s') => (false, s')
    | (some off, s') =>
      (true, { s' with index := idxInsert s'.index k (Entry.mk off v.length false []) })

/-- `KVStore::Get` (the `mutable` read handle may be opened lazily, so
the state is returned as well). -/
def get (s : PState) (k : Str) : Option Str × PState :=
  match idxLookup s.index k with
  | none => (none, s)
  | some e =>
    if s.persist = false || e.in_memory then (some e.cached, s)
    else readValueAt s e.offset e.size

/-- `KVStore::Del`: erase from the index first; in persistent mode
append a `DEL` record unconditionally, ignoring its success; return
whether the key was present. -/
def del (s : PState) (k : Str) (io : IOOut) : Bool × PState :=
  let existed := (idxLookup s.index k).isSome
  let s' := { s with index := idxErase s.index k }
  if s'.persist then (existed, (appendDel s' k io).2) else (existed, s')

/-- `KVStore::Close`: release file handles in persistent mode, no-op
otherwise. -/
def close (s : PState) : PState :=
  if s.persist then closeFiles s else s

/-- One iteration of `KVStore::Compact`'s rewrite loop over the index:
read the entry's current value (via the located offset or the inline
cache), skip the key if the read fails, otherwise emit a fresh `PUT`
record into the temporary file and call `OpenFiles()` (the stray call
inside the loop in the source). -/
def compactStep (acc : PState × Str) (kv : Str × Entry) : PState × Str :=
  let (s, tmp) := acc
  let e := kv.2
  let r := if s.persist = false || e.in_memory then (some e.cached, s)
           else readValueAt s e.offset e.size
  match r.1 with
  | none => (r.2, tmp)
  | some v =>
    (openFiles r.2, tmp ++ (putHeader kv.1 v ++ ['\n'] ++ v ++ ['\n']))

/-- After `fs::rename(log_path_, bak); fs::rename(tmp, log_path_)`, a
handle that was open on the log path refers to the old file object. -/
def retarget (h : HStatus) : HStatus :=
  if h = .onCur then .onStale else h

/-- `KVStore::Compact`: close handles; in memory-only mode report
success; otherwise rewrite the live entries into a temporary file,
atomically swap it in place of the log, and rebuild the index by
replaying the new log (the source calls `ReplayLog` twice).  The
`Except` propagates `ReplayLog`'s exceptions. -/
def compact (s0 : PState) : Except String (Bool × PState) :=
  let s1 := closeFiles s0
  if s1.persist = false then .ok (true, s1)
  else
    let p := s1.index.foldl compactStep (s1, [])
    let s3 := { p.1 with
                stale := p.1.cur, cur := p.2,
                inH := retarget p.1.inH, outH := retarget p.1.outH }
    match replayLog s3.cur with
    | .error e => .error e
    | .ok _ =>
      match replayLog s3.cur with
      | .error e => .error e
      | .ok idx => .ok (true, { s3 with index := idx })

/-- A fresh memory-only engine (`KVStore::KVStore()`). -/
def memInit : PState :=
  PState.mk false [] [] .closed .closed []

/-- `KVStore::KVStore(log_path)`: replay the log at the path (throwing
exceptions propagate out of the constructor), then open the handles. -/
def openEngine (content : Str) : Except String PState :=
  match replayLog content with
  | .error e => .error e
  | .ok idx => .ok (openFiles (PState.mk true content [] .closed .closed idx))

/-- A fresh persistent engine on a path with no existing file. -/
def persInit : PState :=
  PState.mk true [] [] .onCur .onCur []

/-- A write operation issued through the public API. -/
inductive WOp
  | wput (k v : Str)
  | wdel (k : Str)
deriving DecidableEq, Repr

def WOp.key : WOp → Str
  | .wput k _ => k
  | .wdel k => k

/-- Apply one operation (with all I/O succeeding), keeping the state. -/
def stepOp (s : PState) (op : WOp) : PState :=
  match op with
  | .wput k v => (put s k v .ok).2
  | .wdel k => (del s k .ok).2

/-- Run a sequence of Put/Del operations on an engine. -/
def runOps (s : PState) (ops : List WOp) : PState :=
  ops.foldl stepOp s

/-- The value of the last `Put(k, v)` in `ops` not followed by a
`Del(k)`: the most recent operation touching `k` decides (a Put gives
its value, a Del or no operation gives absent). -/
def lastWrite (ops : List WOp) (k : Str) : Option Str :=
  match ops.reverse.find? (fun o => decide (o.key = k)) with
  | some (.wput _ v) => some v
  | _ => none

/-- The bytes a successful operation appends to the log (§4.1 record
framing, as produced by `AppendPut` / `AppendDel`). -/
def encOp : WOp → Str
  | .wput k v => putHeader k v ++ ['\n'] ++ v ++ ['\n']
  | .wdel k => "DEL ".toList ++ k ++ ['\n']

/-- The log produced by a sequence of successful operations. -/
def encOps (ops : List WOp) : Str :=
  (ops.map encOp).flatten

/-- The index obtained by applying the records of `ops` in order, when
the first record starts at absolute byte `base` of the log (shared shape
of the live index updates and of replay). -/
def applyEnc (idx : Index) (base : Nat) : List WOp → Index
  | [] => idx
  | .wput k v :: rest =>
    applyEnc (idxInsert idx k (Entry.mk (base + (putHeader k v).length + 1) v.length false []))
      (base + (encOp (.wput k v)).length) rest
  | .wdel k :: rest =>
    applyEnc (idxErase idx k) (base + (encOp (.wdel k)).length) rest

/-- A key that round-trips through the whitespace-delimited header
syntax: non-empty, with no whitespace characters (§3). -/
def wfKey (k : Str) : Prop :=
  k ≠ [] ∧ ∀ c ∈ k, isWS c = false

instance (k : Str) : Decidable (wfKey k) := by
  unfold wfKey; infer_instance

/-- All keys written by the operation sequence are well-formed. -/
def wfOps (ops : List WOp) : Prop :=
  ∀ op ∈ ops, wfKey op.key

instance (ops : List WOp) : Decidable (wfOps ops) := by
  unfold wfOps; infer_instance

/-- Abstract map semantics of a sequence of operations. -/
def specApply (m : Str → Option Str) (ops : List WOp) : Str → Option Str :=
  ops.foldl
    (fun m' op =>
      match op with
      | .wput k v => fun k' => if k' = k then some v else m' k'
      | .wdel k => fun k' => if k' = k then none else m' k')
    m

/-- Invariant tying a memory-only engine state to the abstract map: the
index caches exactly the map's values. -/
def MemInv (s : PState) (m : Str → Option Str) : Prop :=
  s.persist = false ∧ ∀ k, (idxLookup s.index k).map Entry.cached = m k

/-- Invariant tying a persistent engine state (with both handles open on
the current log) to the abstract map: every live key has a located
entry whose recorded range of the log holds exactly the value. -/
def PersInv (s : PState) (m : Str → Option Str) : Prop :=
  s.persist = true ∧ s.inH = .onCur ∧ s.outH = .onCur ∧
  ∀ k, match m k with
       | none => idxLookup s.index k = none
       | some v =>
         ∃ off, idxLookup s.index k = some (Entry.mk off v.length false [])
           ∧ off + v.length ≤ s.cur.length
           ∧ (s.cur.drop off).take v.length = v

/-! ### Association-list index lemmas -/

theorem idxLookup_insert_self (idx : Index) (k : Str) (e : Entry) :
    idxLookup (idxInsert idx k e) k = some e := by
  induction idx with
  | nil => simp [idxInsert, idxLookup]
  | cons p t ih =>
    obtain ⟨pk, pe⟩ := p
    by_cases h : pk = k
    · subst h
      simp [idxInsert, idxLookup]
    · simp [idxInsert, idxLookup, h, ih]

theorem idxLookup_insert_ne (idx : Index) (k k' : Str) (e : Entry) (h : k' ≠ k) :
    idxLookup (idxInsert idx k e) k' = idxLookup idx k' := by
  induction idx with
  | nil => simp [idxInsert, idxLookup, Ne.symm h]
  | cons p t ih =>
    obtain ⟨pk, pe⟩ := p
    by_cases hp : pk = k
    · subst hp
      simp [idxInsert, idxLookup, Ne.symm h]
    · by_cases hq : pk = k' <;> simp [idxInsert, idxLookup, hp, hq, ih, h]

theorem idxLookup_erase_self (idx : Index) (k : Str) :
    idxLookup (idxErase idx k) k = none := by
  induction idx with
  | nil => simp [idxErase, idxLookup]
  | cons p t ih =>
    obtain ⟨pk, pe⟩ := p
    by_cases h : pk = k
    · subst h
      simpa [idxErase, idxLookup] using ih
    · simpa [idxErase, idxLookup, h] using ih

theorem idxLookup_erase_ne (idx : Index) (k k' : Str) (h : k' ≠ k) :
    idxLookup (idxErase idx k) k' = idxLookup idx k' := by
  induction idx with
  | nil => simp [idxErase, idxLookup]
  | cons p t ih =>
    obtain ⟨pk, pe⟩ := p
    by_cases hp : pk = k
    · subst hp
      simpa [idxErase, idxLookup, Ne.symm h] using ih
    · by_cases hq : pk = k'
      · subst hq
        simp [idxErase, idxLookup, h]
      · simpa [idxErase, idxLookup, hp, hq] using ih

/-! ### State-component lemmas -/

@[simp] theorem openFiles_persist (s : PState) : (openFiles s).persist = s.persist := by
  unfold openFiles; split <;> rfl

@[simp] theorem openFiles_cur (s : PState) : (openFiles s).cur = s.cur := by
  unfold openFiles; split <;> rfl

@[simp] theorem openFiles_stale (s : PState) : (openFiles s).stale = s.stale := by
  unfold openFiles; split <;> rfl

@[simp] theorem openFiles_index (s : PState) : (openFiles s).index = s.index := by
  unfold openFiles; split <;> rfl

@[simp] theorem writeOut_index (s : PState) (b : Str) : (writeOut s b).index = s.index := by
  unfold writeOut; split <;> rfl

@[simp] theorem writeOut_persist (s : PState) (b : Str) : (writeOut s b).persist = s.persist := by
  unfold writeOut; split <;> rfl

@[simp] theorem writeOut_inH (s : PState) (b : Str) : (writeOut s b).inH = s.inH := by
  unfold writeOut; split <;> rfl

@[simp] theorem writeOut_outH (s : PState) (b : Str) : (writeOut s b).outH = s.outH := by
  unfold writeOut; split <;> rfl

theorem openFiles_outH_ne_closed (s : PState) (hp : s.persist = true) :
    (openFiles s).outH ≠ .closed := by
  obtain ⟨pp, c, st, ih, oh, ix⟩ := s
  simp only at hp
  subst hp
  cases oh <;> simp [openFiles]

theorem openFiles_inH_ne_closed (s : PState) (hp : s.persist = true) :
    (openFiles s).inH ≠ .closed := by
  obtain ⟨pp, c, st, ih, oh, ix⟩ := s
  simp only at hp
  subst hp
  cases ih <;> simp [openFiles]

theorem openFiles_of_open (s : PState) (hin : s.inH = .onCur) (hout : s.outH = .onCur) :
    openFiles s = s := by
  obtain ⟨pp, c, st, ih, oh, ix⟩ := s
  simp only at hin hout
  subst hin; subst hout
  unfold openFiles
  split <;> rfl

theorem writeOut_onCur (s : PState) (b : Str) (h : s.outH = .onCur) :
    writeOut s b = { s with cur := s.cur ++ b } := by
  obtain ⟨pp, c, st, ih, oh, ix⟩ := s
  simp only at h
  subst h
  rfl

/-! ### Slice lemmas for positioned reads -/

theorem take_drop_append (a b : Str) (off sz : Nat) (h : off + sz ≤ a.length) :
    ((a ++ b).drop off).take sz = (a.drop off).take sz := by
  rw [List.drop_append_of_le_length (by omega)]
  rw [List.take_append_of_le_length (by simp; omega)]

theorem slice_spot (pre mid post : Str) (off sz : Nat)
    (hoff : off = pre.length) (hsz : sz = mid.length) :
    ((pre ++ (mid ++ post)).drop off).take sz = mid := by
  subst hoff; subst hsz
  rw [List.drop_left, List.take_left]

theorem getElem?_append_cons (a : Str) (c : Char) (t : Str) :
    (a ++ c :: t)[a.length]? = some c := by
  induction a with
  | nil => simp
  | cons x xs ih => simpa using ih

/-! ### Operation equations on open persistent states -/

theorem put_ok_open (s : PState) (k v : Str) (hp : s.persist = true)
    (hin : s.inH = .onCur) (hout : s.outH = .onCur) :
    put s k v .ok
      = (true,
         { s with
           cur := s.cur ++ encOp (.wput k v),
           index := idxInsert s.index k
             (Entry.mk (s.cur.length + (putHeader k v).length + 1) v.length false []) }) := by
  obtain ⟨pp, c, st, ih, oh, ix⟩ := s
  simp only at hp hin hout
  subst hp; subst hin; subst hout
  simp [put, appendPut, openFiles, writeOut, targetOf, encOp, Nat.add_assoc]

theorem del_ok_open (s : PState) (k : Str) (hp : s.persist = true)
    (hin : s.inH = .onCur) (hout : s.outH = .onCur) :
    del s k .ok
      = ((idxLookup s.index k).isSome,
         { s with
           cur := s.cur ++ encOp (.wdel k),
           index := idxErase s.index k }) := by
  obtain ⟨pp, c, st, ih, oh, ix⟩ := s
  simp only at hp hin hout
  subst hp; subst hin; subst hout
  simp [del, appendDel, openFiles, writeOut, targetOf, encOp, idxErase]

theorem del_fst (s : PState) (k : Str) (io : IOOut) :
    (del s k io).1 = (idxLookup s.index k).isSome := by
  obtain ⟨pp, c, st, ih, oh, ix⟩ := s
  cases pp <;> rfl

/-! ### Invariant preservation (memory-only engine) -/

theorem memInv_step (s : PState) (m : Str → Option Str) (op : WOp) (h : MemInv s m) :
    MemInv (stepOp s op) (specApply m [op]) := by
  obtain ⟨hp, hm⟩ := h
  cases op with
  | wput k v =>
    refine ⟨by simp [stepOp, put, hp], fun k' => ?_⟩
    by_cases hk : k' = k
    · subst hk
      simp [stepOp, put, hp, idxLookup_insert_self, specApply]
    · simp [stepOp, put, hp, idxLookup_insert_ne _ _ _ _ hk, specApply, hk, hm k']
  | wdel k =>
    refine ⟨by simp [stepOp, del, hp], fun k' => ?_⟩
    by_cases hk : k' = k
    · subst hk
      simp [stepOp, del, hp, idxLookup_erase_self, specApply]
    · simp [stepOp, del, hp, idxLookup_erase_ne _ _ _ hk, specApply, hk, hm k']

theorem memInv_run (ops : List WOp) (s : PState) (m : Str → Option Str) (h : MemInv s m) :
    MemInv (runOps s ops) (specApply m ops) := by
  induction ops generalizing s m with
  | nil => exact h
  | cons op rest ih => exact ih _ _ (memInv_step s m op h)

theorem memInv_get (s : PState) (m : Str → Option Str) (h : MemInv s m) (k : Str) :
    (get s k).1 = m k ∧ (idxLookup s.index k).isSome = (m k).isSome := by
  obtain ⟨hp, hm⟩ := h
  have hmk := hm k
  cases hq : idxLookup s.index k with
  | none =>
    rw [hq] at hmk
    simp only [Option.map_none'] at hmk
    simp [get, hq, ← hmk]
  | some e =>
    rw [hq] at hmk
    simp only [Option.map_some'] at hmk
    simp [get, hq, hp, ← hmk]

/-! ### Invariant preservation (persistent engine) -/

theorem persInv_step (s : PState) (m : Str → Option Str) (op : WOp) (h : PersInv s m) :
    PersInv (stepOp s op) (specApply m [op]) := by
  obtain ⟨hp, hin, hout, hm⟩ := h
  cases op with
  | wput k v =>
    have hstep : stepOp s (.wput k v)
        = { s with
            cur := s.cur ++ encOp (.wput k v),
            index := idxInsert s.index k
              (Entry.mk (s.cur.length + (putHeader k v).length + 1) v.length false []) } := by
      simp [stepOp, put_ok_open s k v hp hin hout]
    refine ⟨by simp [hstep, hp], by simp [hstep, hin], by simp [hstep, hout],
      fun k' => ?_⟩
    simp only [hstep]
    by_cases hk : k' = k
    · subst hk
      simp only [specApply, List.foldl_cons, List.foldl_nil, if_pos rfl]
      refine ⟨s.cur.length + (putHeader k' v).length + 1, ?_, ?_, ?_⟩
      · simp [idxLookup_insert_self]
      · simp [encOp]
        omega
      · show ((s.cur ++ encOp (.wput k' v)).drop _).take _ = v
        have hshape : s.cur ++ encOp (.wput k' v)
            = (s.cur ++ putHeader k' v ++ ['\n']) ++ (v ++ ['\n']) := by
          simp [encOp]
        rw [hshape]
        exact slice_spot _ v ['\n'] _ _ (by simp [Nat.add_assoc]) rfl
    · have hspec : specApply m [WOp.wput k v] k' = m k' := by
        simp [specApply, hk]
      rw [hspec]
      have := hm k'
      cases hv : m k' with
      | none =>
        rw [hv] at this
        simp [idxLookup_insert_ne _ _ _ _ hk, this]
      | some v' =>
        rw [hv] at this
        obtain ⟨off, hl, hb, hs⟩ := this
        refine ⟨off, ?_, ?_, ?_⟩
        · simp [idxLookup_insert_ne _ _ _ _ hk, hl]
        · simp
          omega
        · rw [take_drop_append _ _ _ _ hb]
          exact hs
  | wdel k =>
    have hstep : stepOp s (.wdel k)
        = { s with
            cur := s.cur ++ encOp (.wdel k),
            index := idxErase s.index k } := by
      simp [stepOp, del_ok_open s k hp hin hout]
    refine ⟨by simp [hstep, hp], by simp [hstep, hin], by simp [hstep, hout],
      fun k' => ?_⟩
    simp only [hstep]
    by_cases hk : k' = k
    · subst hk
      simp only [specApply, List.foldl_cons, List.foldl_nil, if_pos rfl]
      simp [idxLookup_erase_self]
    · have hspec : specApply m [WOp.wdel k] k' = m k' := by
        simp [specApply, hk]
      rw [hspec]
      have := hm k'
      cases hv : m k' with
      | none =>
        rw [hv] at this
        simp [idxLookup_erase_ne _ _ _ hk, this]
      | some v' =>
        rw [hv] at this
        obtain ⟨off, hl, hb, hs⟩ := this
        refine ⟨off, ?_, ?_, ?_⟩
        · simp [idxLookup_erase_ne _ _ _ hk, hl]
        · simp
          omega
        · rw [take_drop_append _ _ _ _ hb]
          exact hs

theorem persInv_run (ops : List WOp) (s : PState) (m : Str → Option Str) (h : PersInv s m) :
    PersInv (runOps s ops) (specApply m ops) := by
  induction ops generalizing s m with
  | nil => exact h
  | cons op rest ih => exact ih _ _ (persInv_step s m op h)

theorem persInv_get (s : PState) (m : Str → Option Str) (h : PersInv s m) (k : Str) :
    (get s k).1 = m k ∧ (idxLookup s.index k).isSome = (m k).isSome := by
  obtain ⟨hp, hin, hout, hm⟩ := h
  have hmk := hm k
  cases hq : m k with
  | none =>
    rw [hq] at hmk
    simp only at hmk
    simp [get, hmk]
  | some v =>
    rw [hq] at hmk
    obtain ⟨off, hl, hb, hs⟩ := hmk
    refine ⟨?_, by simp [hl]⟩
    simp only [get, hl, hp]
    by_cases hz : v.length = 0
    · have : v = [] := List.length_eq_zero.mp hz
      subst this
      simp [readValueAt, hp, hin, targetOf]
    · simp [readValueAt, hp, hin, targetOf, hz, hb, hs]

/-! ### Bridge from the fold semantics to the last-write description -/

theorem specApply_find (ops : List WOp) (m : Str → Option Str) (k : Str) :
    specApply m ops k
      = match ops.reverse.find? (fun o => decide (o.key = k)) with
        | some (.wput _ v) => some v
        | some (.wdel _) => none
        | none => m k := by
  induction ops generalizing m with
  | nil => rfl
  | cons op rest ih =>
    rw [show specApply m (op :: rest) = specApply (specApply m [op]) rest from rfl]
    rw [ih]
    rw [List.reverse_cons, List.find?_append]
    cases hf : rest.reverse.find? (fun o => decide (o.key = k)) with
    | some o => cases o <;> rfl
    | none =>
      cases op with
      | wput k2 v2 =>
        by_cases hk : k2 = k
        · subst hk
          simp [specApply, WOp.key]
        · simp [specApply, WOp.key, hk, Ne.symm hk]
      | wdel k2 =>
        by_cases hk : k2 = k
        · subst hk
          simp [specApply, WOp.key]
        · simp [specApply, WOp.key, hk, Ne.symm hk]

theorem lastWrite_eq_specApply (ops : List WOp) (k : Str) :
    lastWrite ops k = specApply (fun _ => none) ops k := by
  rw [specApply_find]
  unfold lastWrite
  cases ops.reverse.find? (fun o => decide (o.key = k)) with
  | none => rfl
  | some o => cases o <;> rfl

/-! ### Decimal codec lemmas -/

theorem decDigit_toNat (d : Nat) (h : d < 10) : (decDigit d).toNat = 48 + d := by
  interval_cases d <;> rfl

theorem toDecimalGo_digits (fuel n : Nat) (h : n < fuel) :
    ∀ c ∈ toDecimalGo fuel n, isDigitC c = true := by
  induction fuel generalizing n with
  | zero => omega
  | succ fuel ih =>
    intro c hc
    by_cases h10 : n < 10
    · simp [toDecimalGo, h10] at hc
      subst hc
      simp [isDigitC, decDigit_toNat n h10]
      omega
    · simp [toDecimalGo, h10] at hc
      rcases hc with hc | hc
      · exact ih (n / 10) (by omega) c hc
      · subst hc
        simp [isDigitC, decDigit_toNat (n % 10) (Nat.mod_lt n (by omega))]
        omega

theorem toDecimalGo_ne_nil (fuel n : Nat) (h : n < fuel) :
    toDecimalGo fuel n ≠ [] := by
  cases fuel with
  | zero => omega
  | succ fuel =>
    by_cases h10 : n < 10 <;> simp [toDecimalGo, h10]

theorem decToNat_append_digit (l : Str) (c : Char) :
    decToNat (l ++ [c]) = 10 * decToNat l + (c.toNat - 48) := by
  simp [decToNat, List.foldl_append]

theorem decToNat_toDecimalGo (fuel n : Nat) (h : n < fuel) :
    decToNat (toDecimalGo fuel n) = n := by
  induction fuel generalizing n with
  | zero => omega
  | succ fuel ih =>
    by_cases h10 : n < 10
    · simp [toDecimalGo, h10, decToNat, decDigit_toNat n h10]
    · have hdiv : n / 10 < fuel := by
        have hlt : n / 10 < n := Nat.div_lt_self (by omega) (by omega)
        omega
      simp [toDecimalGo, h10, decToNat_append_digit, ih (n / 10) hdiv,
        decDigit_toNat (n % 10) (Nat.mod_lt n (by omega))]
      omega

theorem toDecimal_digits (n : Nat) : ∀ c ∈ toDecimal n, isDigitC c = true :=
  toDecimalGo_digits (n + 1) n (by omega)

theorem toDecimal_ne_nil (n : Nat) : toDecimal n ≠ [] :=
  toDecimalGo_ne_nil (n + 1) n (by omega)

theorem decToNat_toDecimal (n : Nat) : decToNat (toDecimal n) = n :=
  decToNat_toDecimalGo (n + 1) n (by omega)

theorem isWS_of_digit (c : Char) (h : isDigitC c = true) : isWS c = false := by
  simp [isDigitC] at h
  simp [isWS]
  omega

theorem newline_not_digit (c : Char) (h : isDigitC c = true) : c ≠ '\n' := by
  intro hc
  subst hc
  simp [isDigitC] at h

/-! ### Tokenizer lemmas -/

theorem takeWhile_all (p : Char → Bool) (l : Str) (h : ∀ c ∈ l, p c = true) :
    l.takeWhile p = l := by
  induction l with
  | nil => rfl
  | cons x xs ih =>
    simp [List.takeWhile_cons, h x (by simp), ih (fun c hc => h c (by simp [hc]))]

theorem dropWhile_all (p : Char → Bool) (l : Str) (h : ∀ c ∈ l, p c = true) :
    l.dropWhile p = [] := by
  induction l with
  | nil => rfl
  | cons x xs ih =>
    simp [List.dropWhile_cons, h x (by simp), ih (fun c hc => h c (by simp [hc]))]

theorem takeWhile_all_append_stop (p : Char → Bool) (l r : Str) (x : Char)
    (h : ∀ c ∈ l, p c = true) (hx : p x = false) :
    (l ++ x :: r).takeWhile p = l := by
  induction l with
  | nil => simp [List.takeWhile_cons, hx]
  | cons y ys ih =>
    simp [List.takeWhile_cons, h y (by simp), ih (fun c hc => h c (by simp [hc]))]

theorem dropWhile_all_append_stop (p : Char → Bool) (l r : Str) (x : Char)
    (h : ∀ c ∈ l, p c = true) (hx : p x = false) :
    (l ++ x :: r).dropWhile p = x :: r := by
  induction l with
  | nil => simp [List.dropWhile_cons, hx]
  | cons y ys ih =>
    simp [List.dropWhile_cons, h y (by simp), ih (fun c hc => h c (by simp [hc]))]

theorem dropWhile_cons_stop (p : Char → Bool) (x : Char) (xs : Str) (hx : p x = false) :
    (x :: xs).dropWhile p = x :: xs := by
  simp [List.dropWhile_cons, hx]

/-! ### Header parsing lemmas -/

theorem nextToken_put_header (k d : Str) :
    nextToken ("PUT ".toList ++ k ++ " ".toList ++ d)
      = ("PUT".toList, ' ' :: (k ++ ' ' :: d)) := by
  have hshape : "PUT ".toList ++ k ++ " ".toList ++ d
      = 'P' :: ('U' :: ('T' :: (' ' :: (k ++ ' ' :: d)))) := by
    rw [show "PUT ".toList = ['P', 'U', 'T', ' '] from rfl,
      show " ".toList = [' '] from rfl]
    simp
  rw [hshape]
  simp only [nextToken]
  rw [dropWhile_cons_stop isWS 'P' _ (by decide)]
  rw [show ('P' :: ('U' :: ('T' :: (' ' :: (k ++ ' ' :: d)))))
      = "PUT".toList ++ ' ' :: (k ++ ' ' :: d) from rfl]
  rw [takeWhile_all_append_stop _ _ _ _ (by decide) (by decide)]
  rw [dropWhile_all_append_stop _ _ _ _ (by decide) (by decide)]

theorem nextToken_del_header (k : Str) :
    nextToken ("DEL ".toList ++ k) = ("DEL".toList, ' ' :: k) := by
  have hshape : "DEL ".toList ++ k = 'D' :: ('E' :: ('L' :: (' ' :: k))) := by
    rw [show "DEL ".toList = ['D', 'E', 'L', ' '] from rfl]
    simp
  rw [hshape]
  simp only [nextToken]
  rw [dropWhile_cons_stop isWS 'D' _ (by decide)]
  rw [show ('D' :: ('E' :: ('L' :: (' ' :: k)))) = "DEL".toList ++ ' ' :: k from rfl]
  rw [takeWhile_all_append_stop _ _ _ _ (by decide) (by decide)]
  rw [dropWhile_all_append_stop _ _ _ _ (by decide) (by decide)]

theorem nextToken_key_space (k rest : Str) (hk : wfKey k) :
    nextToken (' ' :: (k ++ ' ' :: rest)) = (k, ' ' :: rest) := by
  obtain ⟨hne, hws⟩ := hk
  have hall : ∀ c ∈ k, (!isWS c) = true := by
    intro c hc
    simp [hws c hc]
  have hdrop : (' ' :: (k ++ ' ' :: rest)).dropWhile isWS = k ++ ' ' :: rest := by
    cases k with
    | nil => exact absurd rfl hne
    | cons y ys =>
      have hy : isWS y = false := hws y (by simp)
      simp [List.dropWhile_cons, hy, (by decide : isWS ' ' = true)]
  simp only [nextToken]
  rw [hdrop]
  rw [takeWhile_all_append_stop _ _ _ _ hall (by decide)]
  rw [dropWhile_all_append_stop _ _ _ _ hall (by decide)]

theorem nextToken_key_end (k : Str) (hk : wfKey k) :
    nextToken (' ' :: k) = (k, []) := by
  obtain ⟨hne, hws⟩ := hk
  have hall : ∀ c ∈ k, (!isWS c) = true := by
    intro c hc
    simp [hws c hc]
  have hdrop : (' ' :: k).dropWhile isWS = k := by
    cases k with
    | nil => exact absurd rfl hne
    | cons y ys =>
      have hy : isWS y = false := hws y (by simp)
      simp [List.dropWhile_cons, hy, (by decide : isWS ' ' = true)]
  simp only [nextToken]
  rw [hdrop]
  rw [takeWhile_all _ _ hall, dropWhile_all _ _ hall]

theorem readNat_space_digits (d : Str) (hne : d ≠ []) (hdg : ∀ c ∈ d, isDigitC c = true) :
    readNat (' ' :: d) = decToNat d := by
  have hdrop : (' ' :: d).dropWhile isWS = d := by
    cases d with
    | nil => exact absurd rfl hne
    | cons y ys =>
      have hy : isWS y = false := isWS_of_digit y (hdg y (by simp))
      simp [List.dropWhile_cons, hy, (by decide : isWS ' ' = true)]
  simp only [readNat]
  rw [hdrop, takeWhile_all _ _ hdg]

/-! ### Line framing lemmas -/

theorem splitLine_append (h rest : Str) (hnl : '\n' ∉ h) :
    splitLine (h ++ '\n' :: rest) = (h, h.length + 1, true) := by
  induction h with
  | nil => simp [splitLine]
  | cons c cs ih =>
    have hc : ¬c = '\n' := fun hh => hnl (by simp [hh])
    have ihr := ih (fun hm => hnl (List.mem_cons_of_mem _ hm))
    simp [splitLine, hc, ihr]

theorem getline_at (pre h rest : Str) (hnl : '\n' ∉ h) :
    getline (pre ++ (h ++ '\n' :: rest)) pre.length
      = some (h, pre.length + (h.length + 1), true) := by
  have hlt : pre.length < (pre ++ (h ++ '\n' :: rest)).length := by
    simp only [List.length_append, List.length_cons]
    omega
  simp only [getline]
  rw [if_pos hlt, List.drop_left, splitLine_append h rest hnl]

/-! ### Header byte facts -/

theorem newline_not_mem_putHeader (k v : Str) (hws : ∀ c ∈ k, isWS c = false) :
    '\n' ∉ putHeader k v := by
  intro hmem
  unfold putHeader at hmem
  rcases List.mem_append.mp hmem with hm | hm
  · rcases List.mem_append.mp hm with hm2 | hm2
    · rcases List.mem_append.mp hm2 with hm3 | hm3
      · exact absurd hm3 (by decide)
      · exact absurd (hws '\n' hm3) (by decide)
    · exact absurd hm2 (by decide)
  · exact newline_not_digit '\n' (toDecimal_digits _ '\n' hm) rfl

theorem newline_not_mem_delLine (k : Str) (hws : ∀ c ∈ k, isWS c = false) :
    '\n' ∉ "DEL ".toList ++ k := by
  intro hmem
  rcases List.mem_append.mp hmem with hm | hm
  · exact absurd hm (by decide)
  · exact absurd (hws '\n' hm) (by decide)

theorem putHeader_ne_nil (k v : Str) : putHeader k v ≠ [] := by
  simp [putHeader]

theorem nextToken_putHeader (k v : Str) :
    nextToken (putHeader k v) = ("PUT".toList, ' ' :: (k ++ ' ' :: toDecimal v.length)) :=
  nextToken_put_header k (toDecimal v.length)

theorem readNat_size_field (v : Str) :
    readNat (' ' :: toDecimal v.length) = v.length := by
  rw [readNat_space_digits _ (toDecimal_ne_nil _) (toDecimal_digits _), decToNat_toDecimal]

/-! ### Replay evaluation lemmas -/

theorem replay_end (fuel : Nat) (s : Str) (idx : Index) (p : Nat) (h : s.length ≤ p) :
    replayAux fuel s idx p = .ok idx := by
  cases fuel with
  | zero => rfl
  | succ fuel =>
    simp only [replayAux, getline]
    rw [if_neg (by omega)]

theorem replay_step_put (fuel : Nat) (pre rest : Str) (k v : Str) (idx : Index)
    (hk : wfKey k) :
    replayAux (fuel + 1) (pre ++ (encOp (.wput k v) ++ rest)) idx pre.length
      = replayAux fuel (pre ++ (encOp (.wput k v) ++ rest))
          (idxInsert idx k (Entry.mk (pre.length + (putHeader k v).length + 1) v.length false []))
          (pre.length + (encOp (.wput k v)).length) := by
  have hne := hk.1
  have hws := hk.2
  have hnl := newline_not_mem_putHeader k v hws
  have hshape : encOp (.wput k v) ++ rest
      = putHeader k v ++ '\n' :: (v ++ '\n' :: rest) := by
    simp [encOp]
  rw [hshape]
  have hget : (pre ++ (putHeader k v ++ '\n' :: (v ++ '\n' :: rest)))[pre.length
      + ((putHeader k v).length + 1) + v.length]? = some '\n' := by
    have hshape2 : pre ++ (putHeader k v ++ '\n' :: (v ++ '\n' :: rest))
        = (pre ++ putHeader k v ++ ['\n'] ++ v) ++ '\n' :: rest := by
      simp
    have hlen : (pre ++ putHeader k v ++ ['\n'] ++ v).length
        = pre.length + ((putHeader k v).length + 1) + v.length := by
      simp
      omega
    rw [hshape2, ← hlen]
    exact getElem?_append_cons _ '\n' rest
  simp only [replayAux, getline_at pre (putHeader k v) (v ++ '\n' :: rest) hnl,
    putHeader_ne_nil, nextToken_putHeader, nextToken_key_space k (toDecimal v.length) hk,
    readNat_size_field, hne, hget, if_false, if_true, reduceIte]
  have ho : pre.length + ((putHeader k v).length + 1)
      = pre.length + (putHeader k v).length + 1 := by omega
  rw [ho]
  have hpos : pre.length + (putHeader k v).length + 1 + v.length + 1
      = pre.length + (encOp (.wput k v)).length := by
    simp only [encOp, List.length_append, List.length_cons, List.length_nil]
    omega
  rw [hpos]
  simp

theorem replay_step_del (fuel : Nat) (pre rest : Str) (k : Str) (idx : Index)
    (hk : wfKey k) :
    replayAux (fuel + 1) (pre ++ (encOp (.wdel k) ++ rest)) idx pre.length
      = replayAux fuel (pre ++ (encOp (.wdel k) ++ rest))
          (idxErase idx k)
          (pre.length + (encOp (.wdel k)).length) := by
  have hne := hk.1
  have hws := hk.2
  have hnl := newline_not_mem_delLine k hws
  have hshape : encOp (.wdel k) ++ rest
      = ("DEL ".toList ++ k) ++ '\n' :: rest := by
    simp [encOp]
  rw [hshape]
  have hdne : "DEL ".toList ++ k ≠ [] := by simp
  have hneq : "DEL".toList ≠ "PUT".toList := by decide
  have hpos : pre.length + (("DEL ".toList ++ k).length + 1)
      = pre.length + (encOp (.wdel k)).length := by
    simp only [encOp, List.length_append, List.length_cons, List.length_nil]
    try omega
  simp only [replayAux, getline_at pre ("DEL ".toList ++ k) rest hnl,
    nextToken_del_header, nextToken_key_end k hk, hdne, hne, hneq, if_false, if_true, reduceIte]
  rw [hpos]

theorem encOps_cons (op : WOp) (rest : List WOp) :
    encOps (op :: rest) = encOp op ++ encOps rest := by
  simp [encOps]

theorem encOp_length_pos (op : WOp) : 1 ≤ (encOp op).length := by
  cases op with
  | wput k v =>
    simp [encOp]
    omega
  | wdel k => simp [encOp]

theorem length_le_encOps (ops : List WOp) : ops.length ≤ (encOps ops).length := by
  induction ops with
  | nil => simp [encOps]
  | cons op rest ih =>
    have h1 := encOp_length_pos op
    rw [encOps_cons]
    simp only [List.length_cons, List.length_append]
    omega

/-- Replaying the concatenation of well-formed encoded records applies
them in order: the decoder inverts the encoder record by record. -/
theorem replay_concat (ops : List WOp) : ∀ (fuel : Nat) (pre : Str) (idx : Index),
    wfOps ops → ops.length < fuel →
    replayAux fuel (pre ++ encOps ops) idx pre.length = .ok (applyEnc idx pre.length ops) := by
  induction ops with
  | nil =>
    intro fuel pre idx _ _
    rw [show encOps [] = [] from rfl, List.append_nil]
    exact replay_end fuel pre idx pre.length (Nat.le_refl _)
  | cons op rest ih =>
    intro fuel pre idx hwf hf
    obtain ⟨f, rfl⟩ : ∃ f, fuel = f + 1 := ⟨fuel - 1, by omega⟩
    rw [encOps_cons]
    have hfr : rest.length < f := by
      simp only [List.length_cons] at hf
      omega
    cases op with
    | wput k v =>
      have hk : wfKey k := hwf (.wput k v) (by simp)
      rw [replay_step_put f pre (encOps rest) k v idx hk]
      have h1 : pre ++ (encOp (.wput k v) ++ encOps rest)
          = (pre ++ encOp (.wput k v)) ++ encOps rest := by
        simp
      have h2 : pre.length + (encOp (.wput k v)).length
          = (pre ++ encOp (.wput k v)).length := by
        simp
      rw [h1, h2]
      rw [ih f (pre ++ encOp (.wput k v)) _ (fun o ho => hwf o (by simp [ho])) hfr]
      rw [show applyEnc idx pre.length (WOp.wput k v :: rest)
          = applyEnc (idxInsert idx k
              (Entry.mk (pre.length + (putHeader k v).length + 1) v.length false []))
              (pre.length + (encOp (.wput k v)).length) rest from rfl]
      rw [h2]
    | wdel k =>
      have hk : wfKey k := hwf (.wdel k) (by simp)
      rw [replay_step_del f pre (encOps rest) k idx hk]
      have h1 : pre ++ (encOp (.wdel k) ++ encOps rest)
          = (pre ++ encOp (.wdel k)) ++ encOps rest := by
        simp
      have h2 : pre.length + (encOp (.wdel k)).length
          = (pre ++ encOp (.wdel k)).length := by
        simp
      rw [h1, h2]
      rw [ih f (pre ++ encOp (.wdel k)) _ (fun o ho => hwf o (by simp [ho])) hfr]
      rw [show applyEnc idx pre.length (WOp.wdel k :: rest)
          = applyEnc (idxErase idx k) (pre.length + (encOp (.wdel k)).length) rest from rfl]
      rw [h2]

/-- Running a sequence of successful operations on an open persistent
engine appends exactly the encoded records and installs exactly the
offsets `applyEnc` describes. -/
theorem run_encode (ops : List WOp) : ∀ (s : PState),
    s.persist = true → s.inH = .onCur → s.outH = .onCur →
    runOps s ops = { s with cur := s.cur ++ encOps ops,
                            index := applyEnc s.index s.cur.length ops } := by
  induction ops with
  | nil =>
    intro s hp hin hout
    rw [show encOps [] = [] from rfl, List.append_nil]
    rfl
  | cons op rest ih =>
    intro s hp hin hout
    cases op with
    | wput k v =>
      have hstep : stepOp s (.wput k v)
          = { s with
              cur := s.cur ++ encOp (.wput k v),
              index := idxInsert s.index k
                (Entry.mk (s.cur.length + (putHeader k v).length + 1) v.length false []) } := by
        simp [stepOp, put_ok_open s k v hp hin hout]
      rw [show runOps s (WOp.wput k v :: rest) = runOps (stepOp s (.wput k v)) rest from rfl]
      rw [hstep]
      rw [ih _ (by simp [hp]) (by simp [hin]) (by simp [hout])]
      simp [encOps_cons, applyEnc]
    | wdel k =>
      have hstep : stepOp s (.wdel k)
          = { s with
              cur := s.cur ++ encOp (.wdel k),
              index := idxErase s.index k } := by
        simp [stepOp, del_ok_open s k hp hin hout]
      rw [show runOps s (WOp.wdel k :: rest) = runOps (stepOp s (.wdel k)) rest from rfl]
      rw [hstep]
      rw [ih _ (by simp [hp]) (by simp [hin]) (by simp [hout])]
      simp [encOps_cons, applyEnc]

/-! ### Claim theorems: basic key/value semantics -/

/-- C1: on either a fresh memory-only or a fresh persistent engine, for
every sequence of Put and Del operations, a final Get(k) returns the
value of the last Put(k, v) not followed by a Del(k) and absent
otherwise, and a final Del(k) returns true iff k is present in the
index immediately before the call (equivalently, iff such a last Put
exists). -/
theorem C1_basic_kv_semantics (ops : List WOp) (k : Str) :
    (get (runOps memInit ops) k).1 = lastWrite ops k
  ∧ (get (runOps persInit ops) k).1 = lastWrite ops k
  ∧ (del (runOps memInit ops) k .ok).1
      = (idxLookup (runOps memInit ops).index k).isSome
  ∧ (del (runOps persInit ops) k .ok).1
      = (idxLookup (runOps persInit ops).index k).isSome
  ∧ (idxLookup (runOps memInit ops).index k).isSome = (lastWrite ops k).isSome
  ∧ (idxLookup (runOps persInit ops).index k).isSome = (lastWrite ops k).isSome := by
  have hm0 : MemInv memInit (fun _ => none) := ⟨rfl, fun _ => rfl⟩
  have hp0 : PersInv persInit (fun _ => none) := ⟨rfl, rfl, rfl, fun _ => rfl⟩
  have hmr := memInv_run ops memInit (fun _ => none) hm0
  have hpr := persInv_run ops persInit (fun _ => none) hp0
  have e1 := memInv_get _ _ hmr k
  have e2 := persInv_get _ _ hpr k
  have hl : specApply (fun _ => none) ops k = lastWrite ops k :=
    (lastWrite_eq_specApply ops k).symm
  exact ⟨by rw [e1.1, hl], by rw [e2.1, hl],
    del_fst _ _ _, del_fst _ _ _,
    by rw [e1.2, hl], by rw [e2.2, hl]⟩

/-- C2: after any sequence of successful Puts and Dels with well-formed
keys (non-empty, whitespace-free) on a fresh persistent engine, closing
the engine and constructing a new engine on the same log yields exactly
the original engine state, and therefore the same Get result for every
key. -/
theorem C2_reopen_preserves_state (ops : List WOp) (hwf : wfOps ops) :
    openEngine (close (runOps persInit ops)).cur = .ok (runOps persInit ops)
  ∧ ∀ k s2, openEngine (close (runOps persInit ops)).cur = .ok s2 →
      (get s2 k).1 = (get (runOps persInit ops) k).1 := by
  have hrun := run_encode ops persInit rfl rfl rfl
  have hclose : (close (runOps persInit ops)).cur = (runOps persInit ops).cur := by
    unfold close closeFiles
    split <;> rfl
  have hcur : (runOps persInit ops).cur = encOps ops := by
    rw [hrun]
    simp [persInit]
  have hfuel : ops.length < (encOps ops).length + 1 := by
    have := length_le_encOps ops
    omega
  have hreplay : replayLog (encOps ops) = .ok (applyEnc [] 0 ops) := by
    unfold replayLog
    have hcc := replay_concat ops ((encOps ops).length + 1) [] [] hwf hfuel
    simpa using hcc
  have hmain : openEngine (close (runOps persInit ops)).cur = .ok (runOps persInit ops) := by
    rw [hclose, hcur]
    unfold openEngine
    rw [hreplay]
    show Except.ok (openFiles
        (PState.mk true (encOps ops) [] .closed .closed (applyEnc [] 0 ops)))
      = Except.ok (runOps persInit ops)
    rw [show openFiles (PState.mk true (encOps ops) [] .closed .closed (applyEnc [] 0 ops))
        = PState.mk true (encOps ops) [] .onCur .onCur (applyEnc [] 0 ops) from rfl]
    rw [hrun]
    simp [persInit]
  refine ⟨hmain, fun k s2 h2 => ?_⟩
  rw [hmain] at h2
  have := Except.ok.inj h2
  rw [← this]

/-- C2 witness: the three-operation scenario
`Put("a","1"); Put("b","hello"); Del("a")`, closed and reopened. -/
theorem C2_reopen_preserves_state_witness :
    wfOps [.wput "a".toList "1".toList, .wput "b".toList "hello".toList, .wdel "a".toList]
  ∧ (openEngine (close (runOps persInit
        [.wput "a".toList "1".toList, .wput "b".toList "hello".toList,
         .wdel "a".toList])).cur
      = .ok (runOps persInit
          [.wput "a".toList "1".toList, .wput "b".toList "hello".toList,
           .wdel "a".toList])
     ∧ ∀ k s2, openEngine (close (runOps persInit
          [.wput "a".toList "1".toList, .wput "b".toList "hello".toList,
           .wdel "a".toList])).cur = .ok s2 →
        (get s2 k).1 = (get (runOps persInit
          [.wput "a".toList "1".toList, .wput "b".toList "hello".toList,
           .wdel "a".toList]) k).1) :=
  ⟨by decide, C2_reopen_preserves_state _ (by decide)⟩

/-! ### Claim theorems: recovery error handling and compaction -/

/-- C3: the spec claims recovery returns normally on every corruption
indication, in particular on an empty decoded key.  On the log content
`"PUT\n"` the decoded key is empty and `ReplayLog` instead raises
`std::runtime_error("Bad PUT header in log")`, which propagates out of
recovery (and out of the `KVStore` constructor): the replay model
returns an exception, not a normal result. -/
theorem C3_replay_throws_on_empty_key :
    replayLog "PUT\n".toList = .error "Bad PUT header in log" := rfl

/-- C4: the spec claims that a log produced by a closed engine,
truncated to any byte boundary, can be reopened.  The one-operation
engine `Put("a","1")` leaves the log `"PUT a 1\n1\n"`; truncating it to
its first 3 bytes gives `"PUT"`, on which the decoded key is empty and
reopening raises `std::runtime_error` out of the constructor instead of
yielding the empty state of the longest complete-record prefix. -/
theorem C4_truncated_reopen_throws :
    (runOps persInit [.wput "a".toList "1".toList]).cur = "PUT a 1\n1\n".toList
  ∧ openEngine ((runOps persInit [.wput "a".toList "1".toList]).cur.take 3)
      = .error "Bad PUT header in log" :=
  ⟨rfl, rfl⟩

/-- C5: the spec claims Gets after Compact return the same values as
without Compact.  After `Put("a","X"); Put("a","Y")`, a Get returns
`"Y"`; running Compact first makes the same Get return `"X"`, because
Compact reopens the read handle on the old log file before the rename
and never reopens it afterwards, so the positioned read uses the new
file's offset against the old file's bytes. -/
theorem C5_compact_changes_get_result :
    (get (runOps persInit [.wput "a".toList "X".toList, .wput "a".toList "Y".toList])
        "a".toList).1 = some "Y".toList
  ∧ (match compact (runOps persInit
        [.wput "a".toList "X".toList, .wput "a".toList "Y".toList]) with
     | .ok p => (get p.2 "a".toList).1
     | .error _ => none) = some "X".toList :=
  ⟨rfl, rfl⟩

/-! ### Claim theorems: per-operation laws -/

/-- C6: on a persistent engine whose log holds `n` bytes, the value
offset recorded in the index and returned by append-PUT is
`n + length("PUT " ++ key ++ " " ++ decimal(length value)) + 1`, the
absolute byte position just after the header's terminating newline. -/
theorem C6_value_offset (s : PState) (k v : Str) (hp : s.persist = true)
    (h2 : s.outH = .onCur ∨ s.outH = .closed) :
    (appendPut s k v .ok).1 = some (s.cur.length + (putHeader k v).length + 1)
  ∧ idxLookup (put s k v .ok).2.index k
      = some (Entry.mk (s.cur.length + (putHeader k v).length + 1) v.length false []) := by
  obtain ⟨pp, c, st, ih, oh, ix⟩ := s
  simp only at hp h2
  subst hp
  rcases h2 with h | h <;> subst h <;>
    simp [put, appendPut, openFiles, writeOut, targetOf, idxLookup_insert_self, Nat.add_assoc]

/-- C6 witness: concrete instance on a fresh persistent engine. -/
theorem C6_value_offset_witness :
    persInit.persist = true
  ∧ (persInit.outH = .onCur ∨ persInit.outH = .closed)
  ∧ ((appendPut persInit "k".toList "v7".toList .ok).1
        = some (persInit.cur.length + (putHeader "k".toList "v7".toList).length + 1)
     ∧ idxLookup (put persInit "k".toList "v7".toList .ok).2.index "k".toList
        = some (Entry.mk (persInit.cur.length + (putHeader "k".toList "v7".toList).length + 1)
            ("v7".toList).length false [])) :=
  ⟨rfl, Or.inl rfl, C6_value_offset persInit "k".toList "v7".toList rfl (Or.inl rfl)⟩

/-- C7: if a persistent-mode Put fails to append its record, Put
returns failed and the index is exactly as before the call. -/
theorem C7_put_failure_preserves_index (s : PState) (k v junk : Str)
    (hp : s.persist = true) :
    (put s k v (.fail junk)).1 = false
  ∧ (put s k v (.fail junk)).2.index = s.index := by
  obtain ⟨pp, c, st, ih, oh, ix⟩ := s
  simp only at hp
  subst hp
  cases oh <;> simp [put, appendPut, openFiles, writeOut, targetOf]

/-- C7 witness: concrete failing append on a fresh persistent engine. -/
theorem C7_put_failure_preserves_index_witness :
    persInit.persist = true
  ∧ ((put persInit "k".toList "v".toList (.fail "PU".toList)).1 = false
     ∧ (put persInit "k".toList "v".toList (.fail "PU".toList)).2.index = persInit.index) :=
  ⟨rfl, C7_put_failure_preserves_index persInit "k".toList "v".toList "PU".toList rfl⟩

/-- C8: persistent Del appends a DEL record unconditionally (also when
the key is absent), and its return value is exactly the key's presence
immediately before removal, independent of the append outcome `io`. -/
theorem C8_del_unconditional_append (s : PState) (k : Str) (io : IOOut)
    (hp : s.persist = true) (h2 : s.outH = .onCur ∨ s.outH = .closed) :
    (del s k io).1 = (idxLookup s.index k).isSome
  ∧ (del s k io).2.index = idxErase s.index k
  ∧ (del s k io).2.cur
      = s.cur ++ (match io with
                  | .ok => "DEL ".toList ++ k ++ ['\n']
                  | .fail junk => junk) := by
  obtain ⟨pp, c, st, ih, oh, ix⟩ := s
  simp only at hp h2
  subst hp
  rcases h2 with h | h <;> subst h <;> cases io <;>
    simp [del, appendDel, openFiles, writeOut, targetOf]

/-- C8 witness: deleting an absent key on a fresh persistent engine
still returns `false` and still appends the DEL record. -/
theorem C8_del_unconditional_append_witness :
    persInit.persist = true
  ∧ (persInit.outH = .onCur ∨ persInit.outH = .closed)
  ∧ ((del persInit "a".toList .ok).1 = (idxLookup persInit.index "a".toList).isSome
     ∧ (del persInit "a".toList .ok).2.index = idxErase persInit.index "a".toList
     ∧ (del persInit "a".toList .ok).2.cur
        = persInit.cur ++ (match IOOut.ok with
                           | .ok => "DEL ".toList ++ "a".toList ++ ['\n']
                           | .fail junk => junk)) :=
  ⟨rfl, Or.inl rfl, C8_del_unconditional_append persInit "a".toList .ok rfl (Or.inl rfl)⟩

/-! ### Claim theorems: Close state and key validation -/

/-- C9 counterexample: the spec claims operations after Close are
rejected or no-ops.  On a persistent engine that did `Put("a","1")` and
was closed, a subsequent `Put("b","2")` returns success, appends to the
log file, and installs an index entry. -/
theorem C9_closed_state_counterexample :
    (put (close (runOps persInit [.wput "a".toList "1".toList]))
        "b".toList "2".toList .ok).1 = true
  ∧ (put (close (runOps persInit [.wput "a".toList "1".toList]))
        "b".toList "2".toList .ok).2.cur
      ≠ (runOps persInit [.wput "a".toList "1".toList]).cur
  ∧ idxLookup (put (close (runOps persInit [.wput "a".toList "1".toList]))
        "b".toList "2".toList .ok).2.index "b".toList ≠ none :=
  ⟨rfl, by decide, by decide⟩

/-- C9 amended: Close only releases the file handles; it does not enter
a rejecting state.  After Close on a persistent engine, Put and Del
lazily reopen the log and behave exactly as in the open state, and Get
behaves as with a freshly opened read handle. -/
theorem C9_close_then_lazy_reopen (s : PState) (k v : Str) (hp : s.persist = true) :
    (put (close s) k v .ok).1 = true
  ∧ (put (close s) k v .ok).2.cur = s.cur ++ encOp (.wput k v)
  ∧ (put (close s) k v .ok).2.index
      = idxInsert s.index k
          (Entry.mk (s.cur.length + (putHeader k v).length + 1) v.length false [])
  ∧ (del (close s) k .ok).1 = (idxLookup s.index k).isSome
  ∧ (del (close s) k .ok).2.cur = s.cur ++ encOp (.wdel k)
  ∧ (get (close s) k).1 = (get { s with inH := .onCur } k).1 := by
  obtain ⟨pp, c, st, ih, oh, ix⟩ := s
  simp only at hp
  subst hp
  refine ⟨?_, ?_, ?_, ?_, ?_, ?_⟩ <;>
    simp [put, del, get, close, closeFiles, appendPut, appendDel, openFiles, writeOut,
      targetOf, encOp, Nat.add_assoc]
  cases idxLookup ix k with
  | none => simp
  | some e =>
    cases hm : e.in_memory <;> simp [readValueAt, hm, targetOf]
    by_cases hz : e.size = 0
    · simp [hz]
    · by_cases hb : e.offset + e.size ≤ c.length <;> simp [hz, hb]

/-- C9 amended witness: concrete instance after one Put and Close. -/
theorem C9_close_then_lazy_reopen_witness :
    (runOps persInit [.wput "a".toList "1".toList]).persist = true
  ∧ ((put (close (runOps persInit [.wput "a".toList "1".toList])) "b".toList "2".toList .ok).1 = true
     ∧ (put (close (runOps persInit [.wput "a".toList "1".toList])) "b".toList "2".toList .ok).2.cur
        = (runOps persInit [.wput "a".toList "1".toList]).cur ++ encOp (.wput "b".toList "2".toList)
     ∧ (put (close (runOps persInit [.wput "a".toList "1".toList])) "b".toList "2".toList .ok).2.index
        = idxInsert (runOps persInit [.wput "a".toList "1".toList]).index "b".toList
            (Entry.mk ((runOps persInit [.wput "a".toList "1".toList]).cur.length
                + (putHeader "b".toList "2".toList).length + 1) ("2".toList).length false [])
     ∧ (del (close (runOps persInit [.wput "a".toList "1".toList])) "b".toList .ok).1
        = (idxLookup (runOps persInit [.wput "a".toList "1".toList]).index "b".toList).isSome
     ∧ (del (close (runOps persInit [.wput "a".toList "1".toList])) "b".toList .ok).2.cur
        = (runOps persInit [.wput "a".toList "1".toList]).cur ++ encOp (.wdel "b".toList)
     ∧ (get (close (runOps persInit [.wput "a".toList "1".toList])) "b".toList).1
        = (get { runOps persInit [.wput "a".toList "1".toList] with inH := .onCur } "b".toList).1) :=
  ⟨rfl, C9_close_then_lazy_reopen (runOps persInit [.wput "a".toList "1".toList])
    "b".toList "2".toList rfl⟩

/-- C10: Put and Del validate nothing about the key: any key, including
the empty key and keys containing spaces or newlines, is accepted, and
its bytes are written verbatim into the whitespace-delimited header. -/
theorem C10_no_key_validation (s : PState) (k v : Str) (hp : s.persist = true)
    (h2 : s.outH = .onCur ∨ s.outH = .closed) :
    (put s k v .ok).1 = true
  ∧ (put s k v .ok).2.cur
      = s.cur ++ ("PUT ".toList ++ k ++ " ".toList ++ toDecimal v.length ++ ['\n'] ++ v ++ ['\n'])
  ∧ (del s k .ok).1 = (idxLookup s.index k).isSome
  ∧ (del s k .ok).2.cur = s.cur ++ ("DEL ".toList ++ k ++ ['\n']) := by
  obtain ⟨pp, c, st, ih, oh, ix⟩ := s
  simp only at hp h2
  subst hp
  rcases h2 with h | h <;> subst h <;>
    simp [put, del, appendPut, appendDel, openFiles, writeOut, targetOf, putHeader]

/-- C10 witness: the key `"a b"` (embedded space) and the empty key are
both accepted and written verbatim. -/
theorem C10_no_key_validation_witness :
    persInit.persist = true
  ∧ (persInit.outH = .onCur ∨ persInit.outH = .closed)
  ∧ ((put persInit "a b".toList "v".toList .ok).1 = true
     ∧ (put persInit "a b".toList "v".toList .ok).2.cur
        = persInit.cur ++ ("PUT ".toList ++ "a b".toList ++ " ".toList
            ++ toDecimal ("v".toList).length ++ ['\n'] ++ "v".toList ++ ['\n'])
     ∧ (del persInit "a b".toList .ok).1 = (idxLookup persInit.index "a b".toList).isSome
     ∧ (del persInit "a b".toList .ok).2.cur
        = persInit.cur ++ ("DEL ".toList ++ "a b".toList ++ ['\n']))
  ∧ ((put persInit [] "v".toList .ok).1 = true
     ∧ (put persInit [] "v".toList .ok).2.cur
        = persInit.cur ++ ("PUT ".toList ++ [] ++ " ".toList
            ++ toDecimal ("v".toList).length ++ ['\n'] ++ "v".toList ++ ['\n'])
     ∧ (del persInit [] .ok).1 = (idxLookup persInit.index []).isSome
     ∧ (del persInit [] .ok).2.cur = persInit.cur ++ ("DEL ".toList ++ [] ++ ['\n'])) :=
  ⟨rfl, Or.inl rfl,
    C10_no_key_validation persInit "a b".toList "v".toList rfl (Or.inl rfl),
    C10_no_key_validation persInit [] "v".toList rfl (Or.inl rfl)⟩

end KV
